import Mathlib

/-!
Shallow embedding of the Availability & Booking Engine of `src/server.ts`
(the second, authoritative server revision, lines 454-840).

Time instants are absolute UTC milliseconds, modelled as `Int` (luxon
`DateTime.toMillis`).  All definitions are translated from the source:
* `roundUpToMinutesUTC`   <- src/server.ts lines 496-501
* `mergeBlocks`           <- src/server.ts lines 542-554
* `findSlotScan` / `findFirstFreeSlotFromUTC` <- lines 560-601
* `parseEventDateTimesToUTC` (wire-level filtering policy) <- lines 517-540
* `scheduleAtOrNextUTC` / `commitAtSlot` <- lines 603-680
-/

namespace Scheduler

/-- `SLOT_MINUTES` constant, src/server.ts line 476. -/
def SLOT_MINUTES : Nat := 5

/-- `AVAIL_HORIZON_DAYS` constant, src/server.ts line 477. -/
def AVAIL_HORIZON_DAYS : Int := 30

/-- Milliseconds in one slot step of `minutes` minutes. -/
def stepMsOf (minutes : Nat) : Int := (minutes : Int) * 60000

/-- Mathematical ceiling of `t` to a multiple of `s`:
`Math.ceil(t / s) * s` on exact integers (JS real division + ceil). -/
def ceilMul (t s : Int) : Int := -(-t / s) * s

/-- `roundUpToMinutesUTC` (src/server.ts lines 496-501): convert to UTC
milliseconds, `Math.ceil(ms / stepMs) * stepMs`, then zero the seconds and
milliseconds wall-clock fields (in UTC this floors to the minute). -/
def roundUpToMinutesUTC (t : Int) (minutes : Nat) : Int :=
  let stepMs : Int := stepMsOf minutes
  let rounded : Int := ceilMul t stepMs
  rounded / 60000 * 60000

/-- Busy interval, absolute UTC milliseconds, half-open `[start, stop)`.
The source names the second field `end` (a Lean keyword). -/
structure Interval where
  start : Int
  stop : Int
deriving Repr, DecidableEq

/-- Comparator of the `blocks.slice().sort((a, b) => a.start - b.start)` call
in `mergeBlocks` (src/server.ts line 543).  JS `Array.prototype.sort` is a
stable comparator sort; it is modelled by the (stable, structurally
recursive, hence kernel-computable) insertion sort under this relation. -/
def startOrder (a b : Interval) : Prop := a.start ≤ b.start

instance : DecidableRel startOrder :=
  fun a b => inferInstanceAs (Decidable (a.start ≤ b.start))

instance : IsTotal Interval startOrder := ⟨fun a b => le_total a.start b.start⟩

instance : IsTrans Interval startOrder := ⟨fun _ _ _ => le_trans⟩

/-- One step of the merge fold of `mergeBlocks` (src/server.ts lines 545-552),
with the accumulator kept in reverse order (head = most recently pushed):
push a copy when `b.start > last.end`, else extend `last.end` to `b.end`
when `b.end > last.end`, else drop `b`. -/
def insertBlock (acc : List Interval) (b : Interval) : List Interval :=
  match acc with
  | [] => [b]
  | last :: rest =>
    if last.stop < b.start then b :: last :: rest
    else if last.stop < b.stop then ⟨last.start, b.stop⟩ :: rest
    else last :: rest

/-- `mergeBlocks` (src/server.ts lines 542-554): sort a copy by `start`
ascending, then fold, coalescing overlapping or touching intervals. -/
def mergeBlocks (blocks : List Interval) : List Interval :=
  ((blocks.insertionSort startOrder).foldl insertBlock []).reverse

/-- Relation holding between a later and an earlier entry of the reversed
accumulator: the earlier entry ends strictly before the later starts, and
starts no later than it. -/
def RevGap (x y : Interval) : Prop := y.stop < x.start ∧ y.start ≤ x.start

/-- `x` is contained in `m` as an interval. -/
def SubInterval (x m : Interval) : Prop := m.start ≤ x.start ∧ x.stop ≤ m.stop

/-- The cursor loop of `findFirstFreeSlotFromUTC` (src/server.ts lines
593-600): for each merged interval in order, return the cursor if a whole
slot fits before the interval starts, otherwise jump the cursor to the
interval end rounded up; return the final cursor. -/
def findSlotScan (minutes : Nat) (t : Int) : List Interval → Int
  | [] => t
  | b :: rest =>
    if t + stepMsOf minutes ≤ b.start then t
    else if t < b.stop then
      findSlotScan minutes (roundUpToMinutesUTC b.stop minutes) rest
    else findSlotScan minutes t rest

/-- Pure slot finder given the fetched busy blocks (src/server.ts lines
560-601 with the provider fetch factored out): round the starting instant
up to the slot grid, merge the blocks, scan. -/
def findFirstFreeSlotFromUTC (fromUTC : Int) (blocks : List Interval) : Int :=
  findSlotScan SLOT_MINUTES (roundUpToMinutesUTC fromUTC SLOT_MINUTES)
    (mergeBlocks blocks)

/-- Provider-stored event, as the engine reads it back.  Time fields are the
absolute instants of a well-formed timed event (luxon parse of the stored
RFC3339 strings); presentation-only payload fields (guest flags, reminders,
conference data) are omitted as they never influence the engine. -/
structure GCalEvent where
  id : String
  summary : String
  description : String
  location : String
  attendeeEmail : Option String
  externalKey : String
  startMs : Int
  stopMs : Int
  tz : String
  status : String
  transparency : String
deriving Repr, DecidableEq

/-- Provider calendar state: the stored events (in creation order, as the
sole persistence), a counter modelling the provider assigning fresh event
ids, and whether the filtered idempotency query throws in this environment
(the failure mode caught at src/server.ts lines 647-649). -/
structure CalState where
  events : List GCalEvent
  nextId : Nat
  idempotencyQueryFails : Bool
deriving Repr, DecidableEq

/-- Provider-assigned id of the next inserted event. -/
def freshEventId (s : CalState) : String := "evt" ++ toString s.nextId

/-- Model of `startLocal.toISO(suppressMilliseconds)` (src/server.ts line
623): luxon renders a zone-qualified timestamp, injective in the absolute
instant for a fixed zone; we render the instant and the zone directly. -/
def isoOfInstant (ms : Int) (tz : String) : String := toString ms ++ "@" ++ tz

/-- The idempotency key of src/server.ts lines 619-625:
`['grand-villa', 'diana', email ?? 'anon', startLocal.toISO(...), label ?? ''].join('|')`. -/
def externalKeyFor (email label : Option String) (chosenMs : Int) (tz : String) : String :=
  "grand-villa" ++ "|" ++ "diana" ++ "|" ++ email.getD "anon" ++ "|" ++
    isoOfInstant chosenMs tz ++ "|" ++ label.getD ""

/-- Provider `events.list` window semantics (an event is returned when its
end is after `timeMin` and its start before `timeMax`), with
`showDeleted: false` excluding cancelled events. -/
def listWindow (s : CalState) (lo hi : Int) : List GCalEvent :=
  s.events.filter fun e => (lo < e.stopMs && e.startMs < hi) && e.status != "cancelled"

/-- `parseEventDateTimesToUTC` restricted to the stored well-formed timed
events of the state model (src/server.ts lines 524-539): drop cancelled,
transparent and non-positive-duration events, else yield the interval. -/
def parseStoredEvent (e : GCalEvent) : Option Interval :=
  if e.status == "cancelled" then none
  else if e.transparency == "transparent" then none
  else if e.stopMs ≤ e.startMs then none
  else some ⟨e.startMs, e.stopMs⟩

/-- `findFirstFreeSlotFromUTC` against a provider state (src/server.ts
lines 560-601): round up, fetch all events overlapping the 30-day horizon
window, build and merge the busy blocks, scan. -/
def findFirstFreeSlotFromState (fromUTC : Int) (s : CalState) : Int :=
  let startUTC := roundUpToMinutesUTC fromUTC SLOT_MINUTES
  let endUTC := startUTC + AVAIL_HORIZON_DAYS * 86400000
  findSlotScan SLOT_MINUTES startUTC
    (mergeBlocks ((listWindow s startUTC endUTC).filterMap parseStoredEvent))

/-- Booking result of `scheduleAtOrNextUTC` (src/server.ts lines 640-645 and
674-679); `htmlLink` is omitted as presentation-only. -/
structure BookResult where
  chosenUTC : Int
  bumped : Bool
  eventId : String
deriving Repr, DecidableEq

/-- The filtered idempotency lookup of src/server.ts lines 629-638: list
events carrying the private `externalKey`, within the window
`[chosen, chosen + slot)`, `showDeleted: false`, take the first. -/
def idempotencyHit (s : CalState) (key : String) (lo hi : Int) : Option GCalEvent :=
  (s.events.filter fun e =>
    (e.externalKey == key && (lo < e.stopMs && e.startMs < hi)) && e.status != "cancelled").head?

/-- The event body inserted by the committer (src/server.ts lines 651-672):
one slot long, private `externalKey` embedded, attendee from the caller
email, description derived from the label, provider-assigned fresh id. -/
def insertedEvent (chosenUTC : Int) (email label : Option String)
    (tz summary location : String) (s : CalState) : GCalEvent :=
  ⟨freshEventId s, summary,
    "5-minute appointment with Diana" ++
      (match label with | some l => " — " ++ l | none => ""),
    location, email, externalKeyFor email label chosenUTC tz,
    chosenUTC, chosenUTC + stepMsOf SLOT_MINUTES, tz, "confirmed", ""⟩

/-- The committer portion of `scheduleAtOrNextUTC` after the slot was
chosen (src/server.ts lines 613-679): compute the bump flag and the
idempotency key, attempt the filtered lookup (which yields nothing when the
provider call throws, by the catch at lines 647-649), return the prior
event on a hit, otherwise insert a new event spanning one slot. -/
def commitAtSlot (chosenUTC roundedReqUTC : Int) (email label : Option String)
    (tz summary location : String) (s : CalState) : BookResult × CalState :=
  let bumped := chosenUTC != roundedReqUTC
  let key := externalKeyFor email label chosenUTC tz
  match (if s.idempotencyQueryFails then none
         else idempotencyHit s key chosenUTC (chosenUTC + stepMsOf SLOT_MINUTES)) with
  | some e => (⟨chosenUTC, bumped, e.id⟩, s)
  | none =>
    let ev : GCalEvent := insertedEvent chosenUTC email label tz summary location s
    (⟨chosenUTC, bumped, ev.id⟩,
      ⟨s.events ++ [ev], s.nextId + 1, s.idempotencyQueryFails⟩)

/-- `scheduleAtOrNextUTC` (src/server.ts lines 603-680), with the option
defaulting (`tz ?? DEFAULT_TZ` etc.) already applied by the caller: round
the requested instant up to the slot grid, find the first free slot from
there, then commit at that slot. -/
def scheduleAtOrNextUTC (requestedUTC : Int) (email label : Option String)
    (tz summary location : String) (s : CalState) : BookResult × CalState :=
  let roundedReqUTC := roundUpToMinutesUTC requestedUTC SLOT_MINUTES
  let chosenUTC := findFirstFreeSlotFromState roundedReqUTC s
  commitAtSlot chosenUTC roundedReqUTC email label tz summary location s

/-- Model of a raw (non-empty) ISO timestamp or date string as luxon sees
it: `none` when `DateTime.fromISO` rejects it, otherwise the pair of
`fromISO(s, setZone).toUTC().toMillis()` and
`fromISO(s, zone DEFAULT_TZ).startOf(day).toUTC().toMillis()`. -/
abbrev TimeStr : Type := Option (Int × Int)

/-- Absolute UTC millis of a parsed string (`fromISO(...).toUTC()`);
`none` models an invalid luxon `DateTime`. -/
def tsToUTC (s : TimeStr) : Option Int := s.map Prod.fst

/-- Absolute UTC millis of the start of the string's day in the deployment
zone (`fromISO(s, zone DEFAULT_TZ).startOf(day).toUTC()`). -/
def tsDayStartUTC (s : TimeStr) : Option Int := s.map Prod.snd

/-- The `start`/`end` payload of a provider wire event: an RFC3339
`dateTime` or a date-only `date`, either possibly absent. -/
structure EventDateTime where
  dateTime : Option TimeStr
  date : Option TimeStr
deriving Repr, DecidableEq

/-- Provider wire event as consumed by `parseEventDateTimesToUTC`
(src/server.ts lines 517-540); the source field `end` is a Lean keyword and
is called `stop` here. -/
structure WireEvent where
  status : Option String
  transparency : Option String
  start : Option EventDateTime
  stop : Option EventDateTime
deriving Repr, DecidableEq

/-- `ev.start?.dateTime ?? ev.start?.date` (src/server.ts line 520). -/
def resolvedStart (ev : WireEvent) : Option TimeStr :=
  (ev.start.bind EventDateTime.dateTime).orElse fun _ => ev.start.bind EventDateTime.date

/-- `ev.end?.dateTime ?? ev.end?.date` (src/server.ts line 521). -/
def resolvedStop (ev : WireEvent) : Option TimeStr :=
  (ev.stop.bind EventDateTime.dateTime).orElse fun _ => ev.stop.bind EventDateTime.date

/-- `!!ev.start?.date && !ev.start?.dateTime` (src/server.ts line 528). -/
def isAllDayEvent (ev : WireEvent) : Bool :=
  (ev.start.bind EventDateTime.date).isSome && !(ev.start.bind EventDateTime.dateTime).isSome

/-- `parseEventDateTimesToUTC` (src/server.ts lines 517-540).  Returns
`none` where the source returns `null`; otherwise the pair of start/end
`DateTime`s, each `none` when the corresponding luxon value is invalid
(the all-day branch performs no validity or positivity check). -/
def parseEventDateTimesToUTC (ev : WireEvent) : Option (Option Int × Option Int) :=
  match resolvedStart ev, resolvedStop ev with
  | some ss, some es =>
    if ev.status == some "cancelled" then none
    else if ev.transparency == some "transparent" then none
    else if isAllDayEvent ev then some (tsDayStartUTC ss, tsDayStartUTC es)
    else
      match tsToUTC ss, tsToUTC es with
      | some s, some e => if e ≤ s then none else some (some s, some e)
      | _, _ => none
  | _, _ => none

/-- The per-event harvesting loop of the fetch (src/server.ts lines
584-587): each event is parsed independently and pushed only when the
parse succeeds, so one bad event never fails the whole fetch. -/
def buildBusyBlocks (evs : List WireEvent) : List (Option Int × Option Int) :=
  evs.filterMap parseEventDateTimesToUTC

/-- The two absolute instants the timed branch of
`parseEventDateTimesToUTC` works with, when both parse. -/
def timedTimes (ev : WireEvent) : Option (Int × Int) :=
  match resolvedStart ev, resolvedStop ev with
  | some ss, some es =>
    match tsToUTC ss, tsToUTC es with
    | some a, some b => some (a, b)
    | _, _ => none
  | _, _ => none

/-- A timed event is malformed when either timestamp fails to parse or the
duration is non-positive (`end <= start`, src/server.ts line 538). -/
def timedMalformed (ev : WireEvent) : Prop :=
  match timedTimes ev with
  | none => True
  | some (a, b) => b ≤ a

theorem ceilMul_eq_add (t s : Int) : ceilMul t s = t + (-t) % s := by
  have h := Int.ediv_add_emod (-t) s
  unfold ceilMul
  linarith [h]

theorem le_ceilMul (t : Int) {s : Int} (hs : 0 < s) : t ≤ ceilMul t s := by
  rw [ceilMul_eq_add]
  have := Int.emod_nonneg (-t) (show s ≠ 0 by omega)
  omega

theorem ceilMul_lt (t : Int) {s : Int} (hs : 0 < s) : ceilMul t s < t + s := by
  rw [ceilMul_eq_add]
  have := Int.emod_lt_of_pos (-t) hs
  omega

theorem dvd_ceilMul (t s : Int) : s ∣ ceilMul t s :=
  ⟨-(-t / s), by unfold ceilMul; ring⟩

theorem ceilMul_eq_of_dvd {t s : Int} (h : s ∣ t) : ceilMul t s = t := by
  rw [ceilMul_eq_add]
  have : (-t) % s = 0 := Int.emod_eq_zero_of_dvd (Dvd.dvd.neg_right h)
  omega

theorem ceilMul_le {t u s : Int} (hs : 0 < s) (hd : s ∣ u) (ht : t ≤ u) :
    ceilMul t s ≤ u := by
  by_contra hlt
  push_neg at hlt
  have hdc : s ∣ ceilMul t s - u := Int.dvd_sub (dvd_ceilMul t s) hd
  have hpos : 0 < ceilMul t s - u := by omega
  have := Int.le_of_dvd hpos hdc
  have := ceilMul_lt t hs
  omega

theorem ceilMul_mono {t t' s : Int} (hs : 0 < s) (h : t ≤ t') :
    ceilMul t s ≤ ceilMul t' s :=
  ceilMul_le hs (dvd_ceilMul t' s) (le_trans h (le_ceilMul t' hs))

theorem stepMsOf_pos {minutes : Nat} (h : 0 < minutes) : 0 < stepMsOf minutes := by
  unfold stepMsOf
  positivity

/-- For a positive granularity the trailing seconds/milliseconds zeroing in
`roundUpToMinutesUTC` is a no-op: the ceiling is already a multiple of a
whole minute. -/
theorem roundUp_eq_ceil (t : Int) {minutes : Nat} (_h : 0 < minutes) :
    roundUpToMinutesUTC t minutes = ceilMul t (stepMsOf minutes) := by
  unfold roundUpToMinutesUTC
  have hdvd : (60000 : Int) ∣ ceilMul t (stepMsOf minutes) := by
    rcases dvd_ceilMul t (stepMsOf minutes) with ⟨c, hc⟩
    exact ⟨(minutes : Int) * c, by rw [hc]; unfold stepMsOf; ring⟩
  exact Int.ediv_mul_cancel hdvd

theorem le_roundUp (t : Int) {minutes : Nat} (h : 0 < minutes) :
    t ≤ roundUpToMinutesUTC t minutes := by
  rw [roundUp_eq_ceil t h]
  exact le_ceilMul t (stepMsOf_pos h)

theorem roundUp_lt (t : Int) {minutes : Nat} (h : 0 < minutes) :
    roundUpToMinutesUTC t minutes < t + stepMsOf minutes := by
  rw [roundUp_eq_ceil t h]
  exact ceilMul_lt t (stepMsOf_pos h)

theorem dvd_roundUp (t : Int) {minutes : Nat} (h : 0 < minutes) :
    stepMsOf minutes ∣ roundUpToMinutesUTC t minutes := by
  rw [roundUp_eq_ceil t h]
  exact dvd_ceilMul t (stepMsOf minutes)

theorem roundUp_eq_of_dvd {t : Int} {minutes : Nat} (h : 0 < minutes)
    (hd : stepMsOf minutes ∣ t) : roundUpToMinutesUTC t minutes = t := by
  rw [roundUp_eq_ceil t h]
  exact ceilMul_eq_of_dvd hd

theorem roundUp_le {t u : Int} {minutes : Nat} (h : 0 < minutes)
    (hd : stepMsOf minutes ∣ u) (ht : t ≤ u) : roundUpToMinutesUTC t minutes ≤ u := by
  rw [roundUp_eq_ceil t h]
  exact ceilMul_le (stepMsOf_pos h) hd ht

theorem roundUp_idem (t : Int) {minutes : Nat} (h : 0 < minutes) :
    roundUpToMinutesUTC (roundUpToMinutesUTC t minutes) minutes =
      roundUpToMinutesUTC t minutes :=
  roundUp_eq_of_dvd h (dvd_roundUp t h)

/-- The bound invariant of the merge fold survives one `insertBlock` step:
every entry of the new accumulator still starts no later than every
remaining input. -/
theorem insertBlock_bound (acc : List Interval) (b : Interval) (l : List Interval)
    (hbound : ∀ a ∈ acc, ∀ c ∈ b :: l, a.start ≤ c.start)
    (hb_le : ∀ c ∈ l, b.start ≤ c.start) :
    ∀ a ∈ insertBlock acc b, ∀ c ∈ l, a.start ≤ c.start := by
  intro a ha c hc
  match acc, hbound, ha with
  | [], hbound, ha =>
    simp only [insertBlock, List.mem_singleton] at ha
    subst ha
    exact hb_le c hc
  | last :: rest, hbound, ha =>
    simp only [insertBlock] at ha
    split at ha
    · rcases List.mem_cons.mp ha with rfl | ha
      · exact hb_le c hc
      · exact hbound a ha c (List.mem_cons_of_mem _ hc)
    · split at ha
      · rcases List.mem_cons.mp ha with rfl | ha
        · exact hbound last (List.mem_cons_self _ _) c (List.mem_cons_of_mem _ hc)
        · exact hbound a (List.mem_cons_of_mem _ ha) c (List.mem_cons_of_mem _ hc)
      · exact hbound a ha c (List.mem_cons_of_mem _ hc)

/-- The merge fold preserves: pairwise `RevGap` on the reversed accumulator,
provided the remaining input is sorted by `start` and every accumulator
entry starts no later than every remaining input. -/
theorem foldl_insertBlock_pairwise :
    ∀ (l acc : List Interval),
      l.Pairwise (fun a b => a.start ≤ b.start) →
      (∀ a ∈ acc, ∀ b ∈ l, a.start ≤ b.start) →
      acc.Pairwise RevGap →
      (l.foldl insertBlock acc).Pairwise RevGap := by
  intro l
  induction l with
  | nil => intro acc _ _ hacc; simpa using hacc
  | cons b l ih =>
    intro acc hsort hbound hacc
    rw [List.foldl_cons]
    have hsort' : l.Pairwise (fun a b => a.start ≤ b.start) := hsort.tail
    have hb_le : ∀ c ∈ l, b.start ≤ c.start := by
      intro c hc
      exact (List.pairwise_cons.mp hsort).1 c hc
    apply ih _ hsort'
    · exact insertBlock_bound acc b l hbound hb_le
    · -- pairwise RevGap for the new accumulator
      match acc with
      | [] => simp [insertBlock]
      | last :: rest =>
        have hlast_le : last.start ≤ b.start :=
          hbound last (List.mem_cons_self _ _) b (List.mem_cons_self _ _)
        have hrest : ∀ a ∈ rest, RevGap last a := (List.pairwise_cons.mp hacc).1
        have hrest_pw : rest.Pairwise RevGap := (List.pairwise_cons.mp hacc).2
        simp only [insertBlock]
        split
        · -- push: b :: last :: rest
          rename_i hpush
          refine List.pairwise_cons.mpr ⟨?_, hacc⟩
          intro a ha
          rcases List.mem_cons.mp ha with rfl | ha
          · exact ⟨hpush, hlast_le⟩
          · rcases hrest a ha with ⟨h1, h2⟩
            exact ⟨lt_of_lt_of_le h1 hlast_le, le_trans h2 hlast_le⟩
        · split
          · -- extend: same start as last, larger stop
            refine List.pairwise_cons.mpr ⟨?_, hrest_pw⟩
            intro a ha
            exact hrest a ha
          · exact hacc

theorem sort_start_sorted (blocks : List Interval) :
    (blocks.insertionSort startOrder).Pairwise (fun a b => a.start ≤ b.start) :=
  (List.sorted_insertionSort startOrder blocks).imp (fun hab => hab)

/-- The merged timeline carries both invariants at once: entries are sorted
ascending by `start` and each entry ends strictly before the next starts. -/
theorem mergeBlocks_pairwise (blocks : List Interval) :
    (mergeBlocks blocks).Pairwise (fun a b => a.stop < b.start ∧ a.start ≤ b.start) := by
  unfold mergeBlocks
  rw [List.pairwise_reverse]
  exact foldl_insertBlock_pairwise (blocks.insertionSort startOrder) []
    (sort_start_sorted blocks) (by simp) (by simp)

theorem mergeBlocks_sorted (blocks : List Interval) :
    (mergeBlocks blocks).Pairwise (fun a b => a.start ≤ b.start) :=
  (mergeBlocks_pairwise blocks).imp (fun h => h.2)

theorem mergeBlocks_gap (blocks : List Interval) :
    (mergeBlocks blocks).Pairwise (fun a b => a.stop < b.start) :=
  (mergeBlocks_pairwise blocks).imp (fun h => h.1)

/-- The merge fold preserves interval containment: every interval already
contained in an accumulator entry stays contained, and every input block
ends up contained in some entry of the result. -/
theorem foldl_insertBlock_contain :
    ∀ (l acc : List Interval),
      l.Pairwise (fun a b => a.start ≤ b.start) →
      (∀ a ∈ acc, ∀ b ∈ l, a.start ≤ b.start) →
      (∀ x : Interval, (∃ m ∈ acc, SubInterval x m) →
          ∃ m ∈ l.foldl insertBlock acc, SubInterval x m) ∧
      (∀ b ∈ l, ∃ m ∈ l.foldl insertBlock acc, SubInterval b m) := by
  intro l
  induction l with
  | nil =>
    intro acc _ _
    exact ⟨fun x hx => by simpa using hx, fun b hb => by simp at hb⟩
  | cons b l ih =>
    intro acc hsort hbound
    have hb_le : ∀ a ∈ acc, a.start ≤ b.start :=
      fun a ha => hbound a ha b (List.mem_cons_self _ _)
    have hbfut : ∀ c ∈ l, b.start ≤ c.start :=
      fun c hc => (List.pairwise_cons.mp hsort).1 c hc
    have hbound' : ∀ a ∈ insertBlock acc b, ∀ c ∈ l, a.start ≤ c.start :=
      insertBlock_bound acc b l hbound hbfut
    have hmono : ∀ x : Interval, (∃ m ∈ acc, SubInterval x m) →
        ∃ m ∈ insertBlock acc b, SubInterval x m := by
      intro x hx
      rcases hx with ⟨m, hm, hsub⟩
      match acc, hm with
      | last :: rest, hm =>
        simp only [insertBlock]
        split
        · exact ⟨m, List.mem_cons_of_mem _ hm, hsub⟩
        · split
          · rcases List.mem_cons.mp hm with rfl | hm
            · rename_i hext
              exact ⟨⟨m.start, b.stop⟩, List.mem_cons_self _ _,
                hsub.1, le_trans hsub.2 (le_of_lt hext)⟩
            · exact ⟨m, List.mem_cons_of_mem _ hm, hsub⟩
          · exact ⟨m, hm, hsub⟩
    have hbin : ∃ m ∈ insertBlock acc b, SubInterval b m := by
      match acc with
      | [] =>
        exact ⟨b, by simp [insertBlock], le_refl _, le_refl _⟩
      | last :: rest =>
        have hstart : last.start ≤ b.start := hb_le last (List.mem_cons_self _ _)
        simp only [insertBlock]
        split
        · exact ⟨b, List.mem_cons_self _ _, le_refl _, le_refl _⟩
        · split
          · exact ⟨⟨last.start, b.stop⟩, List.mem_cons_self _ _, hstart, le_refl _⟩
          · rename_i hnpush hnext
            exact ⟨last, List.mem_cons_self _ _, hstart, by omega⟩
    rw [List.foldl_cons]
    rcases ih (insertBlock acc b) hsort.tail hbound' with ⟨ihmono, ihall⟩
    refine ⟨fun x hx => ihmono x (hmono x hx), ?_⟩
    intro c hc
    rcases List.mem_cons.mp hc with rfl | hc
    · exact ihmono c hbin
    · exact ihall c hc

/-- Every input block is contained in some entry of the merged timeline. -/
theorem mergeBlocks_contains (blocks : List Interval) :
    ∀ b ∈ blocks, ∃ m ∈ mergeBlocks blocks, SubInterval b m := by
  intro b hb
  have hmem : b ∈ blocks.insertionSort startOrder := (List.mem_insertionSort startOrder).mpr hb
  rcases (foldl_insertBlock_contain (blocks.insertionSort startOrder) []
      (sort_start_sorted blocks) (by simp)).2 b hmem with ⟨m, hm, hsub⟩
  exact ⟨m, by simpa [mergeBlocks] using hm, hsub⟩

/-- Every point of an entry of the merge-fold result is a point of some
accumulator entry or of some input block. -/
theorem foldl_insertBlock_points :
    ∀ (l acc : List Interval) (m : Interval), m ∈ l.foldl insertBlock acc →
      ∀ x : Int, m.start ≤ x → x < m.stop →
        (∃ a ∈ acc, a.start ≤ x ∧ x < a.stop) ∨
        (∃ b ∈ l, b.start ≤ x ∧ x < b.stop) := by
  intro l
  induction l with
  | nil =>
    intro acc m hm x h1 h2
    exact Or.inl ⟨m, by simpa using hm, h1, h2⟩
  | cons b l ih =>
    intro acc m hm x h1 h2
    rw [List.foldl_cons] at hm
    rcases ih (insertBlock acc b) m hm x h1 h2 with h | h
    · rcases h with ⟨a, ha, hax⟩
      match acc, ha with
      | [], ha =>
        simp only [insertBlock, List.mem_singleton] at ha
        subst ha
        exact Or.inr ⟨a, List.mem_cons_self _ _, hax⟩
      | last :: rest, ha =>
        simp only [insertBlock] at ha
        split at ha
        · rcases List.mem_cons.mp ha with rfl | ha
          · exact Or.inr ⟨a, List.mem_cons_self _ _, hax⟩
          · exact Or.inl ⟨a, ha, hax⟩
        · split at ha
          · rcases List.mem_cons.mp ha with rfl | ha
            · rename_i hnpush hext
              by_cases hx : x < last.stop
              · exact Or.inl ⟨last, List.mem_cons_self _ _, hax.1, hx⟩
              · exact Or.inr ⟨b, List.mem_cons_self _ _, by omega, hax.2⟩
            · exact Or.inl ⟨a, List.mem_cons_of_mem _ ha, hax⟩
          · exact Or.inl ⟨a, ha, hax⟩
    · rcases h with ⟨c, hc, hcx⟩
      exact Or.inr ⟨c, List.mem_cons_of_mem _ hc, hcx⟩

/-- Merge preserves coverage both ways: a point is busy in the merged
timeline exactly when it is busy in some input block. -/
theorem mergeBlocks_coverage (blocks : List Interval) (x : Int) :
    (∃ b ∈ blocks, b.start ≤ x ∧ x < b.stop) ↔
    (∃ m ∈ mergeBlocks blocks, m.start ≤ x ∧ x < m.stop) := by
  constructor
  · rintro ⟨b, hb, hx1, hx2⟩
    rcases mergeBlocks_contains blocks b hb with ⟨m, hm, hs1, hs2⟩
    exact ⟨m, hm, le_trans hs1 hx1, lt_of_lt_of_le hx2 hs2⟩
  · rintro ⟨m, hm, hx1, hx2⟩
    have hm' : m ∈ (blocks.insertionSort startOrder).foldl insertBlock [] := by
      simpa [mergeBlocks] using hm
    rcases foldl_insertBlock_points (blocks.insertionSort startOrder) [] m hm' x hx1 hx2 with h | h
    · simp at h
    · rcases h with ⟨c, hc, hcx⟩
      exact ⟨c, (List.mem_insertionSort startOrder).mp hc, hcx⟩

/-- If every input block is non-degenerate then so is every merged entry. -/
theorem foldl_insertBlock_nondeg :
    ∀ (l acc : List Interval),
      l.Pairwise (fun a b => a.start ≤ b.start) →
      (∀ a ∈ acc, ∀ b ∈ l, a.start ≤ b.start) →
      (∀ a ∈ acc, a.start < a.stop) →
      (∀ b ∈ l, b.start < b.stop) →
      ∀ m ∈ l.foldl insertBlock acc, m.start < m.stop := by
  intro l
  induction l with
  | nil =>
    intro acc _ _ hacc _ m hm
    exact hacc m (by simpa using hm)
  | cons b l ih =>
    intro acc hsort hbound hacc hl m hm
    rw [List.foldl_cons] at hm
    have hbfut : ∀ c ∈ l, b.start ≤ c.start :=
      fun c hc => (List.pairwise_cons.mp hsort).1 c hc
    have hbound' : ∀ a ∈ insertBlock acc b, ∀ c ∈ l, a.start ≤ c.start :=
      insertBlock_bound acc b l hbound hbfut
    have hacc' : ∀ a ∈ insertBlock acc b, a.start < a.stop := by
      intro a ha
      have hb : b.start < b.stop := hl b (List.mem_cons_self _ _)
      match acc, hbound, hacc, ha with
      | [], hbound, hacc, ha =>
        simp only [insertBlock, List.mem_singleton] at ha
        subst ha
        exact hb
      | last :: rest, hbound, hacc, ha =>
        have hstart : last.start ≤ b.start :=
          hbound last (List.mem_cons_self _ _) b (List.mem_cons_self _ _)
        simp only [insertBlock] at ha
        split at ha
        · rcases List.mem_cons.mp ha with rfl | ha
          · exact hb
          · exact hacc a ha
        · split at ha
          · rcases List.mem_cons.mp ha with rfl | ha
            · simp only
              omega
            · exact hacc a (List.mem_cons_of_mem _ ha)
          · exact hacc a ha
    exact ih (insertBlock acc b) hsort.tail hbound' hacc'
      (fun c hc => hl c (List.mem_cons_of_mem _ hc)) m hm

theorem mergeBlocks_nondeg (blocks : List Interval)
    (h : ∀ b ∈ blocks, b.start < b.stop) :
    ∀ m ∈ mergeBlocks blocks, m.start < m.stop := by
  intro m hm
  have hm' : m ∈ (blocks.insertionSort startOrder).foldl insertBlock [] := by
    simpa [mergeBlocks] using hm
  exact foldl_insertBlock_nondeg (blocks.insertionSort startOrder) []
    (sort_start_sorted blocks) (by simp) (by simp)
    (fun b hb => h b ((List.mem_insertionSort startOrder).mp hb)) m hm'

theorem findSlotScan_ge {minutes : Nat} (h : 0 < minutes) :
    ∀ (l : List Interval) (t : Int), t ≤ findSlotScan minutes t l := by
  intro l
  induction l with
  | nil => intro t; simp [findSlotScan]
  | cons b rest ih =>
    intro t
    simp only [findSlotScan]
    split
    · exact le_refl _
    · split
      · rename_i hlt
        exact le_trans (le_of_lt hlt)
          (le_trans (le_roundUp b.stop h) (ih _))
      · exact ih t

theorem findSlotScan_dvd {minutes : Nat} (h : 0 < minutes) :
    ∀ (l : List Interval) (t : Int), stepMsOf minutes ∣ t →
      stepMsOf minutes ∣ findSlotScan minutes t l := by
  intro l
  induction l with
  | nil => intro t ht; simpa [findSlotScan] using ht
  | cons b rest ih =>
    intro t ht
    simp only [findSlotScan]
    split
    · exact ht
    · split
      · exact ih _ (dvd_roundUp b.stop h)
      · exact ih t ht

/-- The slot starting at the scan result does not overlap any interval of a
timeline sorted ascending by `start`. -/
theorem findSlotScan_avoid {minutes : Nat} (h : 0 < minutes) :
    ∀ (l : List Interval) (t : Int),
      l.Pairwise (fun a b => a.start ≤ b.start) →
      ∀ b ∈ l, findSlotScan minutes t l + stepMsOf minutes ≤ b.start ∨
        b.stop ≤ findSlotScan minutes t l := by
  intro l
  induction l with
  | nil => intro t _ b hb; simp at hb
  | cons c rest ih =>
    intro t hsort b hb
    have hc_le : ∀ a ∈ rest, c.start ≤ a.start := (List.pairwise_cons.mp hsort).1
    simp only [findSlotScan]
    split
    · rename_i hfit
      rcases List.mem_cons.mp hb with rfl | hb
      · exact Or.inl hfit
      · exact Or.inl (le_trans hfit (hc_le b hb))
    · rename_i hnfit
      split
      · rename_i hin
        rcases List.mem_cons.mp hb with rfl | hb
        · right
          exact le_trans (le_roundUp b.stop h) (findSlotScan_ge h rest _)
        · exact ih _ hsort.tail b hb
      · rename_i hout
        rcases List.mem_cons.mp hb with rfl | hb
        · right
          exact le_trans (by omega) (findSlotScan_ge h rest t)
        · exact ih t hsort.tail b hb

/-- Minimality of the scan: every slot-aligned candidate at or after the
cursor and strictly before the scan result has its slot overlapping some
interval of the timeline. -/
theorem findSlotScan_min {minutes : Nat} (h : 0 < minutes) :
    ∀ (l : List Interval) (t : Int), stepMsOf minutes ∣ t →
      ∀ u : Int, stepMsOf minutes ∣ u → t ≤ u → u < findSlotScan minutes t l →
        ∃ b ∈ l, u < b.stop ∧ b.start < u + stepMsOf minutes := by
  intro l
  induction l with
  | nil =>
    intro t _ u _ htu hu
    simp only [findSlotScan] at hu
    omega
  | cons c rest ih =>
    intro t ht u hdu htu hu
    simp only [findSlotScan] at hu
    split at hu
    · omega
    · rename_i hnfit
      split at hu
      · rename_i hin
        by_cases hcase : u < roundUpToMinutesUTC c.stop minutes
        · refine ⟨c, List.mem_cons_self _ _, ?_, by omega⟩
          -- u and the rounded jump target are both slot-aligned, so
          -- u ≤ jump - step < c.stop
          have hdr : stepMsOf minutes ∣ roundUpToMinutesUTC c.stop minutes :=
            dvd_roundUp c.stop h
          have hgap : u + stepMsOf minutes ≤ roundUpToMinutesUTC c.stop minutes := by
            rcases Int.dvd_sub hdr hdu with ⟨k, hk⟩
            have hspos := stepMsOf_pos h
            have : stepMsOf minutes ≤ roundUpToMinutesUTC c.stop minutes - u :=
              Int.le_of_dvd (by omega) (Int.dvd_sub hdr hdu)
            omega
          have := roundUp_lt c.stop h
          omega
        · rcases ih (roundUpToMinutesUTC c.stop minutes) (dvd_roundUp c.stop h)
            u hdu (by omega) hu with ⟨b, hb, hbu⟩
          exact ⟨b, List.mem_cons_of_mem _ hb, hbu⟩
      · rcases ih t ht u hdu htu hu with ⟨b, hb, hbu⟩
        exact ⟨b, List.mem_cons_of_mem _ hb, hbu⟩

/-- The committer reports the slot it was handed and flags a bump exactly
when that slot differs from the rounded requested instant, on both the
replay and the insert path. -/
theorem commitAtSlot_chosen_bumped (c r : Int) (email label : Option String)
    (tz su lo : String) (s : CalState) :
    (commitAtSlot c r email label tz su lo s).1.chosenUTC = c ∧
    (commitAtSlot c r email label tz su lo s).1.bumped = (c != r) := by
  unfold commitAtSlot
  split
  · simp
  · rcases hhit : idempotencyHit s (externalKeyFor email label c tz) c
      (c + stepMsOf SLOT_MINUTES) with _ | e <;> simp [hhit]

/-- C5: `roundUpToMinutesUTC` is idempotent, never moves an instant
backwards, and fixes instants already lying on the slot grid (ceiling, not
strictly-greater rounding). -/
theorem C5_normalize_idem_monotone_boundary (t : Int) (g : Nat) (hg : 0 < g) :
    roundUpToMinutesUTC (roundUpToMinutesUTC t g) g = roundUpToMinutesUTC t g ∧
    t ≤ roundUpToMinutesUTC t g ∧
    (stepMsOf g ∣ t → roundUpToMinutesUTC t g = t) :=
  ⟨roundUp_idem t hg, le_roundUp t hg, fun hd => roundUp_eq_of_dvd hg hd⟩

/-- C5 witness: the instant 123457 ms at granularity 5 minutes. -/
theorem C5_witness :
    roundUpToMinutesUTC (roundUpToMinutesUTC 123457 5) 5 = roundUpToMinutesUTC 123457 5 ∧
    (123457 : Int) ≤ roundUpToMinutesUTC 123457 5 ∧
    (stepMsOf 5 ∣ (123457 : Int) → roundUpToMinutesUTC 123457 5 = 123457) :=
  C5_normalize_idem_monotone_boundary 123457 5 (by decide)

/-- C4: `mergeBlocks` returns a timeline sorted ascending by start, no two
entries (in order) have the earlier ending at or after the later starting,
and any touching or overlapping pair of inputs lands inside one single
merged entry. -/
theorem C4_merge_minimal (blocks : List Interval) :
    (mergeBlocks blocks).Pairwise (fun a b => a.start ≤ b.start) ∧
    (mergeBlocks blocks).Pairwise (fun a b => a.stop < b.start) ∧
    (∀ a ∈ blocks, ∀ b ∈ blocks, b.start ≤ a.stop → a.start ≤ b.stop →
      ∃ m ∈ mergeBlocks blocks, SubInterval a m ∧ SubInterval b m) := by
  refine ⟨mergeBlocks_sorted blocks, mergeBlocks_gap blocks, ?_⟩
  intro a ha b hb htouch1 htouch2
  rcases mergeBlocks_contains blocks a ha with ⟨ma, hma, hsa⟩
  rcases mergeBlocks_contains blocks b hb with ⟨mb, hmb, hsb⟩
  by_cases heq : ma = mb
  · subst heq
    exact ⟨ma, hma, hsa, hsb⟩
  · have hpw : (mergeBlocks blocks).Pairwise
        (fun x y => x.stop < y.start ∨ y.stop < x.start) :=
      (mergeBlocks_gap blocks).imp Or.inl
    have hsym : Symmetric (fun x y : Interval => x.stop < y.start ∨ y.stop < x.start) :=
      fun x y hxy => hxy.symm
    rcases hpw.forall hsym hma hmb heq with hlt | hlt
    · rcases hsa with ⟨_, hsa2⟩
      rcases hsb with ⟨hsb1, _⟩
      omega
    · rcases hsa with ⟨hsa1, _⟩
      rcases hsb with ⟨_, hsb2⟩
      omega

/-- C4 witness: the touching inputs `[0,5)` and `[3,10)` are coalesced into
one merged entry containing both. -/
theorem C4_witness :
    ∃ m ∈ mergeBlocks [Interval.mk 0 5, Interval.mk 3 10],
      SubInterval (Interval.mk 0 5) m ∧ SubInterval (Interval.mk 3 10) m :=
  (C4_merge_minimal [Interval.mk 0 5, Interval.mk 3 10]).2.2
    (Interval.mk 0 5) (by decide) (Interval.mk 3 10) (by decide)
    (by decide) (by decide)

/-- C9: merging neither loses nor invents busy time: an instant lies in
some merged interval exactly when it lies in some input interval. -/
theorem C9_merge_coverage (blocks : List Interval) (x : Int) :
    (∃ b ∈ blocks, b.start ≤ x ∧ x < b.stop) ↔
    (∃ m ∈ mergeBlocks blocks, m.start ≤ x ∧ x < m.stop) :=
  mergeBlocks_coverage blocks x

/-- C9 witness: instant 7 inside the overlapping inputs `[0,8)`, `[5,12)`. -/
theorem C9_witness :
    (∃ b ∈ [Interval.mk 0 8, Interval.mk 5 12], b.start ≤ (7 : Int) ∧ (7 : Int) < b.stop) ↔
    (∃ m ∈ mergeBlocks [Interval.mk 0 8, Interval.mk 5 12],
      m.start ≤ (7 : Int) ∧ (7 : Int) < m.stop) :=
  C9_merge_coverage [Interval.mk 0 8, Interval.mk 5 12] 7

/-- C2: the slot chosen by the slot finder overlaps no interval of the
merged busy timeline it scanned. -/
theorem C2_slot_respects_busy (blocks : List Interval) (fromUTC : Int) :
    ∀ b ∈ mergeBlocks blocks,
      ¬ (findFirstFreeSlotFromUTC fromUTC blocks < b.stop ∧
         b.start < findFirstFreeSlotFromUTC fromUTC blocks + stepMsOf SLOT_MINUTES) := by
  intro b hb
  have h5 : 0 < SLOT_MINUTES := by decide
  have h := findSlotScan_avoid h5 (mergeBlocks blocks)
    (roundUpToMinutesUTC fromUTC SLOT_MINUTES) (mergeBlocks_sorted blocks) b hb
  unfold findFirstFreeSlotFromUTC
  rintro ⟨h1, h2⟩
  rcases h with h | h <;> omega

/-- C2 witness: with the busy interval `[0, 300000)` and starting instant 0
the chosen slot (300000) does not overlap the busy interval. -/
theorem C2_witness :
    ¬ (findFirstFreeSlotFromUTC 0 [Interval.mk 0 300000] < (Interval.mk 0 300000).stop ∧
       (Interval.mk 0 300000).start <
         findFirstFreeSlotFromUTC 0 [Interval.mk 0 300000] + stepMsOf SLOT_MINUTES) :=
  C2_slot_respects_busy [Interval.mk 0 300000] 0 (Interval.mk 0 300000) (by decide)

/-- C3: the slot finder returns the earliest admissible slot: the result is
slot-aligned, at or after the normalized starting instant, its slot
overlaps no merged busy interval, and every earlier slot-aligned candidate
has its slot overlapping some merged busy interval. -/
theorem C3_slot_finder_earliest (blocks : List Interval) (fromUTC : Int) :
    stepMsOf SLOT_MINUTES ∣ findFirstFreeSlotFromUTC fromUTC blocks ∧
    roundUpToMinutesUTC fromUTC SLOT_MINUTES ≤ findFirstFreeSlotFromUTC fromUTC blocks ∧
    (∀ b ∈ mergeBlocks blocks,
      ¬ (findFirstFreeSlotFromUTC fromUTC blocks < b.stop ∧
         b.start < findFirstFreeSlotFromUTC fromUTC blocks + stepMsOf SLOT_MINUTES)) ∧
    (∀ u : Int, stepMsOf SLOT_MINUTES ∣ u →
      roundUpToMinutesUTC fromUTC SLOT_MINUTES ≤ u →
      u < findFirstFreeSlotFromUTC fromUTC blocks →
      ∃ b ∈ mergeBlocks blocks, u < b.stop ∧ b.start < u + stepMsOf SLOT_MINUTES) := by
  have h5 : 0 < SLOT_MINUTES := by decide
  unfold findFirstFreeSlotFromUTC
  refine ⟨findSlotScan_dvd h5 _ _ (dvd_roundUp fromUTC h5),
    findSlotScan_ge h5 _ _, ?_, ?_⟩
  · intro b hb
    have h := findSlotScan_avoid h5 (mergeBlocks blocks)
      (roundUpToMinutesUTC fromUTC SLOT_MINUTES) (mergeBlocks_sorted blocks) b hb
    rintro ⟨h1, h2⟩
    rcases h with h | h <;> omega
  · intro u hdu hu1 hu2
    exact findSlotScan_min h5 (mergeBlocks blocks) _ (dvd_roundUp fromUTC h5) u hdu hu1 hu2

/-- C3 witness: with the busy interval `[0, 300000)` and starting instant 0
the result is slot-aligned and the earlier candidate 0 is blocked. -/
theorem C3_witness :
    stepMsOf SLOT_MINUTES ∣ findFirstFreeSlotFromUTC 0 [Interval.mk 0 300000] ∧
    (∃ b ∈ mergeBlocks [Interval.mk 0 300000],
      (0 : Int) < b.stop ∧ b.start < (0 : Int) + stepMsOf SLOT_MINUTES) :=
  ⟨(C3_slot_finder_earliest [Interval.mk 0 300000] 0).1,
   (C3_slot_finder_earliest [Interval.mk 0 300000] 0).2.2.2 0
     (by decide) (by decide) (by decide)⟩

/-- C6: the returned bump flag is true exactly when the chosen instant
differs from the normalized (rounded-up) requested instant. -/
theorem C6_bump_flag_correct (requestedUTC : Int) (email label : Option String)
    (tz su lo : String) (s : CalState) :
    (scheduleAtOrNextUTC requestedUTC email label tz su lo s).1.bumped = true ↔
    (scheduleAtOrNextUTC requestedUTC email label tz su lo s).1.chosenUTC ≠
      roundUpToMinutesUTC requestedUTC SLOT_MINUTES := by
  simp only [scheduleAtOrNextUTC]
  rcases commitAtSlot_chosen_bumped
    (findFirstFreeSlotFromState (roundUpToMinutesUTC requestedUTC SLOT_MINUTES) s)
    (roundUpToMinutesUTC requestedUTC SLOT_MINUTES) email label tz su lo s with ⟨h1, h2⟩
  rw [h1, h2]
  exact bne_iff_ne

/-- C6 witness: a booking at instant 7 against an empty calendar. -/
theorem C6_witness :
    (scheduleAtOrNextUTC 7 (some "a") none "u" "s" "v" ⟨[], 0, false⟩).1.bumped = true ↔
    (scheduleAtOrNextUTC 7 (some "a") none "u" "s" "v" ⟨[], 0, false⟩).1.chosenUTC ≠
      roundUpToMinutesUTC 7 SLOT_MINUTES :=
  C6_bump_flag_correct 7 (some "a") none "u" "s" "v" ⟨[], 0, false⟩

/-- C10: the slot finder is total (its codomain has no error value, matching
the source, which has no exhaustion check): when every slot-aligned
candidate before the rounded-up end of the last merged busy interval is
blocked, it returns exactly that rounded-up end, unconstrained by the
horizon. -/
theorem C10_total_no_exhaustion (blocks : List Interval) (fromUTC : Int)
    (init : List Interval) (lastI : Interval)
    (hnd : ∀ b ∈ blocks, b.start < b.stop)
    (hsplit : mergeBlocks blocks = init ++ [lastI])
    (hblocked : ∀ u : Int, stepMsOf SLOT_MINUTES ∣ u →
      roundUpToMinutesUTC fromUTC SLOT_MINUTES ≤ u →
      u < roundUpToMinutesUTC lastI.stop SLOT_MINUTES →
      ∃ b ∈ mergeBlocks blocks, u < b.stop ∧ b.start < u + stepMsOf SLOT_MINUTES)
    (hstart : roundUpToMinutesUTC fromUTC SLOT_MINUTES <
      roundUpToMinutesUTC lastI.stop SLOT_MINUTES) :
    findFirstFreeSlotFromUTC fromUTC blocks =
      roundUpToMinutesUTC lastI.stop SLOT_MINUTES := by
  have h5 : 0 < SLOT_MINUTES := by decide
  have hfe : findFirstFreeSlotFromUTC fromUTC blocks =
      findSlotScan SLOT_MINUTES (roundUpToMinutesUTC fromUTC SLOT_MINUTES)
        (mergeBlocks blocks) := rfl
  have hlast_mem : lastI ∈ mergeBlocks blocks := by rw [hsplit]; simp
  have hstop : ∀ b ∈ mergeBlocks blocks, b.stop ≤ lastI.stop := by
    intro b hb
    rw [hsplit] at hb
    rcases List.mem_append.mp hb with hbi | hbl
    · have hpw := mergeBlocks_gap blocks
      rw [hsplit] at hpw
      rcases List.pairwise_append.mp hpw with ⟨_, _, hcross⟩
      have h1 : b.stop < lastI.start := hcross b hbi lastI (by simp)
      have h2 : lastI.start < lastI.stop := mergeBlocks_nondeg blocks hnd lastI hlast_mem
      omega
    · rcases List.mem_singleton.mp hbl with rfl
      exact le_refl _
  have hdvd_st : stepMsOf SLOT_MINUTES ∣ roundUpToMinutesUTC fromUTC SLOT_MINUTES :=
    dvd_roundUp _ h5
  have hdvd_L : stepMsOf SLOT_MINUTES ∣ roundUpToMinutesUTC lastI.stop SLOT_MINUTES :=
    dvd_roundUp _ h5
  rw [hfe]
  have hle1 : findSlotScan SLOT_MINUTES (roundUpToMinutesUTC fromUTC SLOT_MINUTES)
      (mergeBlocks blocks) ≤ roundUpToMinutesUTC lastI.stop SLOT_MINUTES := by
    by_contra hlt
    push_neg at hlt
    rcases findSlotScan_min h5 (mergeBlocks blocks) _ hdvd_st
      (roundUpToMinutesUTC lastI.stop SLOT_MINUTES) hdvd_L (le_of_lt hstart) hlt with
      ⟨b, hbmem, hb1, _⟩
    have hb2 := hstop b hbmem
    have hb3 := le_roundUp lastI.stop h5
    omega
  have hle2 : roundUpToMinutesUTC lastI.stop SLOT_MINUTES ≤
      findSlotScan SLOT_MINUTES (roundUpToMinutesUTC fromUTC SLOT_MINUTES)
        (mergeBlocks blocks) := by
    by_contra hlt
    push_neg at hlt
    have hgeR := findSlotScan_ge h5 (mergeBlocks blocks)
      (roundUpToMinutesUTC fromUTC SLOT_MINUTES)
    have hdvdR := findSlotScan_dvd h5 (mergeBlocks blocks)
      (roundUpToMinutesUTC fromUTC SLOT_MINUTES) hdvd_st
    rcases hblocked _ hdvdR hgeR hlt with ⟨b, hbmem, hb1, hb2⟩
    rcases findSlotScan_avoid h5 (mergeBlocks blocks)
      (roundUpToMinutesUTC fromUTC SLOT_MINUTES) (mergeBlocks_sorted blocks) b hbmem with
      h | h <;> omega
  omega

/-- C10 witness: one busy interval covering 31 days starting at the epoch;
every candidate through it is blocked, and the returned instant equals the
rounded-up interval end and lies beyond the 30-day horizon. -/
theorem C10_witness :
    findFirstFreeSlotFromUTC 0 [Interval.mk 0 2678400000] =
      roundUpToMinutesUTC (Interval.mk 0 2678400000).stop SLOT_MINUTES ∧
    (0 : Int) + AVAIL_HORIZON_DAYS * 86400000 ≤
      roundUpToMinutesUTC (Interval.mk 0 2678400000).stop SLOT_MINUTES := by
  constructor
  · refine C10_total_no_exhaustion [Interval.mk 0 2678400000] 0 [] (Interval.mk 0 2678400000)
      (by decide) (by decide) ?_ (by decide)
    intro u hdvd h0 hL
    have h1 : roundUpToMinutesUTC (Interval.mk 0 2678400000).stop SLOT_MINUTES =
        2678400000 := by decide
    have h2 : roundUpToMinutesUTC 0 SLOT_MINUTES = 0 := by decide
    have h3 : stepMsOf SLOT_MINUTES = 300000 := by decide
    refine ⟨Interval.mk 0 2678400000, by decide, ?_, ?_⟩
    · simp only [Interval.mk.injEq]
      omega
    · simp only [Interval.mk.injEq]
      omega
  · decide

/-- C8: when the filtered idempotency query throws, the error is swallowed
and the booking falls through to inserting a new event (one more stored
event, fresh id), regardless of any matching prior booking. -/
theorem C8_idempotency_failure_swallowed (requestedUTC : Int) (email label : Option String)
    (tz su lo : String) (s : CalState) (hq : s.idempotencyQueryFails = true) :
    (scheduleAtOrNextUTC requestedUTC email label tz su lo s).2.events.length =
      s.events.length + 1 ∧
    (scheduleAtOrNextUTC requestedUTC email label tz su lo s).1.eventId =
      freshEventId s := by
  simp [scheduleAtOrNextUTC, commitAtSlot, insertedEvent, hq]

/-- C8 witness: a state whose stored event already carries the exact key the
booking would compute, but whose filtered query throws: a second event is
inserted anyway. -/
theorem C8_witness :
    (scheduleAtOrNextUTC 0 (some "a") (some "l") "u" "s" "v"
      ⟨[⟨"evt0", "s", "d", "v", some "a", externalKeyFor (some "a") (some "l") 0 "u",
          0, 300000, "u", "confirmed", ""⟩], 1, true⟩).2.events.length =
      (⟨[⟨"evt0", "s", "d", "v", some "a", externalKeyFor (some "a") (some "l") 0 "u",
          0, 300000, "u", "confirmed", ""⟩], 1, true⟩ : CalState).events.length + 1 ∧
    (scheduleAtOrNextUTC 0 (some "a") (some "l") "u" "s" "v"
      ⟨[⟨"evt0", "s", "d", "v", some "a", externalKeyFor (some "a") (some "l") 0 "u",
          0, 300000, "u", "confirmed", ""⟩], 1, true⟩).1.eventId =
      freshEventId ⟨[⟨"evt0", "s", "d", "v", some "a",
          externalKeyFor (some "a") (some "l") 0 "u",
          0, 300000, "u", "confirmed", ""⟩], 1, true⟩ :=
  C8_idempotency_failure_swallowed 0 (some "a") (some "l") "u" "s" "v" _ rfl

/-- C7 (amended): `parseEventDateTimesToUTC` yields no busy interval
exactly when a start or end field is missing, the event is cancelled or
transparent, or — for non-all-day events only — a timestamp fails to parse
or the duration is non-positive.  Malformed all-day events are NOT
discarded (see the counterexample). -/
theorem C7_filter_policy (ev : WireEvent) :
    parseEventDateTimesToUTC ev = none ↔
      (resolvedStart ev = none ∨ resolvedStop ev = none ∨
       ev.status = some "cancelled" ∨ ev.transparency = some "transparent" ∨
       (isAllDayEvent ev = false ∧ timedMalformed ev)) := by
  unfold parseEventDateTimesToUTC timedMalformed timedTimes
  rcases hss : resolvedStart ev with _ | ss
  · simp
  · rcases hes : resolvedStop ev with _ | es
    · simp
    · simp only [hss, hes]
      by_cases hc : ev.status = some "cancelled"
      · simp [hc]
      · have hc' : (ev.status == some "cancelled") = false := by
          simpa using hc
        by_cases ht : ev.transparency = some "transparent"
        · simp [hc', ht, hc]
        · have ht' : (ev.transparency == some "transparent") = false := by
            simpa using ht
          by_cases had : isAllDayEvent ev
          · simp [hc', ht', had, hc, ht]
          · have had' : isAllDayEvent ev = false := by
              simpa using had
            rcases hta : tsToUTC ss with _ | a
            · simp [hc', ht', had', hta, hc, ht]
            · rcases htb : tsToUTC es with _ | b
              · simp [hc', ht', had', hta, htb, hc, ht]
              · by_cases hba : b ≤ a
                · simp [hc', ht', had', hta, htb, hba, hc, ht]
                · simp [hc', ht', had', hta, htb, hba, hc, ht]

/-- C7 counterexample: an all-day event whose end day precedes its start
day (non-positive duration, hence malformed) still yields a busy interval
instead of being discarded: the validity and positivity checks sit only on
the timed branch of the source. -/
theorem C7_counterexample :
    parseEventDateTimesToUTC
      ⟨none, none,
        some ⟨none, some (some (172800000, 172800000))⟩,
        some ⟨none, some (some (86400000, 86400000))⟩⟩ =
      some (some 172800000, some 86400000) := by decide

/-- C7 witness: a timed event with a non-positive duration is discarded. -/
theorem C7_witness :
    parseEventDateTimesToUTC
      ⟨none, none,
        some ⟨some (some (100, 0)), none⟩,
        some ⟨some (some (50, 0)), none⟩⟩ = none ↔
      (resolvedStart ⟨none, none,
        some ⟨some (some (100, 0)), none⟩,
        some ⟨some (some (50, 0)), none⟩⟩ = none ∨
       resolvedStop ⟨none, none,
        some ⟨some (some (100, 0)), none⟩,
        some ⟨some (some (50, 0)), none⟩⟩ = none ∨
       (⟨none, none,
        some ⟨some (some (100, 0)), none⟩,
        some ⟨some (some (50, 0)), none⟩⟩ : WireEvent).status = some "cancelled" ∨
       (⟨none, none,
        some ⟨some (some (100, 0)), none⟩,
        some ⟨some (some (50, 0)), none⟩⟩ : WireEvent).transparency = some "transparent" ∨
       (isAllDayEvent ⟨none, none,
        some ⟨some (some (100, 0)), none⟩,
        some ⟨some (some (50, 0)), none⟩⟩ = false ∧
        timedMalformed ⟨none, none,
          some ⟨some (some (100, 0)), none⟩,
          some ⟨some (some (50, 0)), none⟩⟩)) :=
  C7_filter_policy
    ⟨none, none,
      some ⟨some (some (100, 0)), none⟩,
      some ⟨some (some (50, 0)), none⟩⟩

/-- C1 counterexample: the identical booking request issued twice, the
second call against the state left by the first (empty calendar, request at
the epoch).  The first inserted event occupies the chosen slot, so the
second call is bumped to the next slot, computes a different idempotency
key, misses the replay lookup, inserts again, and returns a different
eventId: two provider inserts happen and a new busy interval is created. -/
theorem C1_counterexample :
    (scheduleAtOrNextUTC 0 (some "a@b.c") (some "tour") "utc" "s" "v"
        (scheduleAtOrNextUTC 0 (some "a@b.c") (some "tour") "utc" "s" "v"
          ⟨[], 0, false⟩).2).1.eventId ≠
      (scheduleAtOrNextUTC 0 (some "a@b.c") (some "tour") "utc" "s" "v"
        ⟨[], 0, false⟩).1.eventId ∧
    (scheduleAtOrNextUTC 0 (some "a@b.c") (some "tour") "utc" "s" "v"
        (scheduleAtOrNextUTC 0 (some "a@b.c") (some "tour") "utc" "s" "v"
          ⟨[], 0, false⟩).2).2.events.length = 2 := by decide

/-- C1 (amended): replay is idempotent only at a fixed chosen slot: when
the second identical commit resolves to the same `chosenInstant` (as for
concurrent requests that observed the same busy timeline, the case the
source comments target), the filtered lookup finds the first insert, the
same eventId is returned and no second insert happens.  Replaying the full
booking operation sequentially does not satisfy this premise: the slot
finder re-runs against the state left by the first call (see the
counterexample). -/
theorem C1_commit_replay_idempotent (chosen rounded : Int) (email label : Option String)
    (tz su lo : String) (s : CalState) (hq : s.idempotencyQueryFails = false) :
    (commitAtSlot chosen rounded email label tz su lo
        (commitAtSlot chosen rounded email label tz su lo s).2).1.eventId =
      (commitAtSlot chosen rounded email label tz su lo s).1.eventId ∧
    (commitAtSlot chosen rounded email label tz su lo
        (commitAtSlot chosen rounded email label tz su lo s).2).2 =
      (commitAtSlot chosen rounded email label tz su lo s).2 := by
  have hstep : (0 : Int) < stepMsOf SLOT_MINUTES := by decide
  rcases hhit : idempotencyHit s (externalKeyFor email label chosen tz) chosen
      (chosen + stepMsOf SLOT_MINUTES) with _ | e
  · -- no prior booking: the first call inserts, the second finds it
    have h1 : commitAtSlot chosen rounded email label tz su lo s =
        (⟨chosen, chosen != rounded, (insertedEvent chosen email label tz su lo s).id⟩,
         ⟨s.events ++ [insertedEvent chosen email label tz su lo s], s.nextId + 1,
          s.idempotencyQueryFails⟩) := by
      simp [commitAtSlot, hq, hhit]
    have hfil : s.events.filter (fun e =>
        (e.externalKey == externalKeyFor email label chosen tz &&
          (decide (chosen < e.stopMs) &&
            decide (e.startMs < chosen + stepMsOf SLOT_MINUTES))) &&
        e.status != "cancelled") = [] := by
      unfold idempotencyHit at hhit
      exact List.head?_eq_none_iff.mp hhit
    have hp : (((insertedEvent chosen email label tz su lo s).externalKey ==
          externalKeyFor email label chosen tz &&
        (decide (chosen < (insertedEvent chosen email label tz su lo s).stopMs) &&
          decide ((insertedEvent chosen email label tz su lo s).startMs <
            chosen + stepMsOf SLOT_MINUTES))) &&
        ((insertedEvent chosen email label tz su lo s).status != "cancelled")) = true := by
      simp [insertedEvent]
      omega
    have hhit2 : idempotencyHit
        (⟨s.events ++ [insertedEvent chosen email label tz su lo s], s.nextId + 1,
          false⟩ : CalState)
        (externalKeyFor email label chosen tz) chosen
        (chosen + stepMsOf SLOT_MINUTES) = some (insertedEvent chosen email label tz su lo s) := by
      unfold idempotencyHit
      simp only [List.filter_append, hfil, List.nil_append, List.filter_cons, hp,
        if_true, List.filter_nil]
      rfl
    rw [h1]
    simp [commitAtSlot, hq, hhit2]
  · -- prior booking found: the first call does not change the state
    have h1 : commitAtSlot chosen rounded email label tz su lo s =
        (⟨chosen, chosen != rounded, e.id⟩, s) := by
      simp [commitAtSlot, hq, hhit]
    rw [h1]
    simp [h1]

/-- C1 witness: committing twice at the fixed slot 0 against an empty
calendar yields the same eventId and an unchanged state after the first
insert. -/
theorem C1_witness :
    (commitAtSlot 0 0 (some "a@b.c") (some "tour") "utc" "s" "v"
        (commitAtSlot 0 0 (some "a@b.c") (some "tour") "utc" "s" "v"
          ⟨[], 0, false⟩).2).1.eventId =
      (commitAtSlot 0 0 (some "a@b.c") (some "tour") "utc" "s" "v"
        ⟨[], 0, false⟩).1.eventId ∧
    (commitAtSlot 0 0 (some "a@b.c") (some "tour") "utc" "s" "v"
        (commitAtSlot 0 0 (some "a@b.c") (some "tour") "utc" "s" "v"
          ⟨[], 0, false⟩).2).2 =
      (commitAtSlot 0 0 (some "a@b.c") (some "tour") "utc" "s" "v"
        ⟨[], 0, false⟩).2 :=
  C1_commit_replay_idempotent 0 0 (some "a@b.c") (some "tour") "utc" "s" "v"
    ⟨[], 0, false⟩ rfl

end Scheduler
